import Mathlib

set_option maxRecDepth 8192

/-!
Verification of the nodecraft value model and wire format: the domain
validator/normalizer, the tagged binary address codec, the bounded
identifier codec and the TTL resolution cache.

Strings are embedded as lists of naturals: for the byte-level codec paths
(`DnsName`, `NodeAddress`, `NodeId`) a list holds UTF-8 bytes, and for the
IDNA-processing paths (`Domain`) a list holds Unicode scalar values (the
two coincide on ASCII input, and the ASCII fast path is the only place the
byte view is consulted).
-/

namespace Nodecraft

/-- Unicode scalar values (equivalently, bytes, for ASCII text) of a string
literal, used to write concrete test vectors. -/
def cp (s : String) : List Nat := s.data.map Char.toNat

/-- Lexicographic comparison of byte slices, as Rust's `Ord for [u8]`:
shorter prefixes compare less. -/
def listCompare : List Nat → List Nat → Ordering
  | [], [] => .eq
  | [], _ :: _ => .lt
  | _ :: _, [] => .gt
  | a :: as, b :: bs =>
    if a < b then .lt else if b < a then .gt else listCompare as bs

/-- Rust `Ord for u16`/`usize` comparison. -/
def natCmp (a b : Nat) : Ordering :=
  if a < b then .lt else if b < a then .gt else .eq

/-- `trim_end_matches('.')`: drop every trailing dot (byte 46). -/
def trimDots (l : List Nat) : List Nat :=
  (l.reverse.dropWhile (fun c => c == 46)).reverse

/-- `ends_with('.')`. -/
def endsWithDot (l : List Nat) : Bool :=
  l.getLast? == some 46

/-- Big-endian bytes of a `u16` (`u16::to_be_bytes`). -/
def u16be (p : Nat) : List Nat := [p / 256 % 256, p % 256]

/-- Read a big-endian `u16` from the first two bytes. -/
def be16 (l : List Nat) : Nat := l.getD 0 0 * 256 + l.getD 1 0

def isDigitB (c : Nat) : Bool := 48 ≤ c && c ≤ 57
def isAlphaB (c : Nat) : Bool := (65 ≤ c && c ≤ 90) || (97 ≤ c && c ≤ 122)

/-- Model of `core::str::from_utf8`'s success condition: the standard
UTF-8 well-formedness table over a byte list. -/
def isValidUtf8 : List Nat → Bool
  | [] => true
  | c :: rest =>
    if c ≤ 0x7F then isValidUtf8 rest
    else if 0xC2 ≤ c && c ≤ 0xDF then
      match rest with
      | c1 :: r => (0x80 ≤ c1 && c1 ≤ 0xBF) && isValidUtf8 r
      | [] => false
    else if 0xE0 ≤ c && c ≤ 0xEF then
      match rest with
      | c1 :: c2 :: r =>
        (if c == 0xE0 then 0xA0 ≤ c1 && c1 ≤ 0xBF
         else if c == 0xED then 0x80 ≤ c1 && c1 ≤ 0x9F
         else 0x80 ≤ c1 && c1 ≤ 0xBF)
        && (0x80 ≤ c2 && c2 ≤ 0xBF) && isValidUtf8 r
      | _ => false
    else if 0xF0 ≤ c && c ≤ 0xF4 then
      match rest with
      | c1 :: c2 :: c3 :: r =>
        (if c == 0xF0 then 0x90 ≤ c1 && c1 ≤ 0xBF
         else if c == 0xF4 then 0x80 ≤ c1 && c1 ≤ 0x8F
         else 0x80 ≤ c1 && c1 ≤ 0xBF)
        && (0x80 ≤ c2 && c2 ≤ 0xBF) && (0x80 ≤ c3 && c3 ≤ 0xBF) && isValidUtf8 r
      | _ => false
    else false

def natDecimalGo : Nat → Nat → List Nat → List Nat
  | 0, _, acc => acc
  | fuel + 1, n, acc =>
    if n < 10 then (48 + n) :: acc
    else natDecimalGo fuel (n / 10) ((48 + n % 10) :: acc)

/-- ASCII decimal digits of a natural number, most significant first. -/
def natDecimal (n : Nat) : List Nat := natDecimalGo (n + 1) n []

/-! ## The DNS-syntax validator state machine

Shared by `dns_name.rs::validate` and `impls.rs::validate`; the two differ
only in their wrappers (the latter adds an emptiness check and accepts the
root name `"."`). -/

inductive DState where
  | start
  | next
  | numericOnly (len : Nat)
  | nextAfterNumericOnly
  | subsequent (len : Nat)
  | hyphen (len : Nat)
deriving DecidableEq, Repr

/-- One transition of the validator's scan over a byte, `None` meaning the
scan rejects.  Mirrors the ordered `match` arms of the Rust source. -/
def dstep : DState → Nat → Option DState
  | s, 46 =>
    match s with
    | .subsequent _ => some .next
    | .numericOnly _ => some .nextAfterNumericOnly
    | _ => none
  | s, c =>
    match s with
    | .start | .next | .nextAfterNumericOnly =>
      if isDigitB c then some (.numericOnly 1)
      else if isAlphaB c || c == 95 then some (.subsequent 1)
      else none
    | .subsequent len =>
      if 63 ≤ len then none
      else if c == 45 then some (.hyphen (len + 1))
      else if isDigitB c || isAlphaB c || c == 95 then some (.subsequent (len + 1))
      else none
    | .numericOnly len =>
      if 63 ≤ len then none
      else if isDigitB c then some (.numericOnly (len + 1))
      else if c == 45 then some (.hyphen (len + 1))
      else if isAlphaB c || c == 95 then some (.subsequent (len + 1))
      else none
    | .hyphen len =>
      if 63 ≤ len then none
      else if c == 45 then some (.hyphen (len + 1))
      else if isDigitB c || isAlphaB c || c == 95 then some (.subsequent (len + 1))
      else none

/-- Run the scan over a whole input. -/
def drun (s : DState) : List Nat → Option DState
  | [] => some s
  | c :: rest =>
    match dstep s c with
    | none => none
    | some s' => drun s' rest

/-- The final-state check: everything except `Next` and `Subsequent`
is rejected. -/
def dAccept : DState → Bool
  | .next => true
  | .subsequent _ => true
  | _ => false

/-- `dns_name.rs::validate`: length bound, then the scan. -/
def dnsValidate (input : List Nat) : Bool :=
  if 253 < input.length then false
  else
    match drun .start input with
    | some s => dAccept s
    | none => false

/-- `impls.rs::validate`: additionally rejects the empty input and accepts
the single-dot root name before scanning. -/
def domainValidate (input : List Nat) : Bool :=
  if 253 < input.length || input.length == 0 then false
  else if input == [46] then true
  else
    match drun .start input with
    | some s => dAccept s
    | none => false

/-! ## `DnsName` (dns_name.rs) -/

/-- A syntactically valid DNS name as stored by `DnsName` (the wrapped
`SmolStr`'s bytes). -/
structure DnsName where
  inner : List Nat
deriving DecidableEq, Repr

/-- `DnsName::try_from<&str>`: validate, then the inline-buffer storage
logic. For inputs shorter than 23 bytes that end with a dot the buffer
path appends a second dot; shorter inputs without a dot are stored
verbatim; inputs of 23 bytes or more get a dot appended only when they
lack one. -/
def DnsName.tryFrom (value : List Nat) : Option DnsName :=
  if dnsValidate value then
    if value.length < 23 then
      if endsWithDot value then some ⟨value ++ [46]⟩
      else some ⟨value⟩
    else if !(endsWithDot value) then some ⟨value ++ [46]⟩
    else some ⟨value⟩
  else none

/-- `DnsName::as_str`: the inner string with trailing dots trimmed. -/
def DnsName.asStr (d : DnsName) : List Nat := trimDots d.inner

/-- `DnsName::terminate_str`: the inner string as stored. -/
def DnsName.terminateStr (d : DnsName) : List Nat := d.inner

/-! ## IP-address literal and socket-address literal parsing

`NodeAddress` parsing delegates to the Rust standard library's
`IpAddr`/`SocketAddr` `FromStr` implementations, which live outside this
crate; these definitions model them: dotted-quad IPv4 without leading
zeros, and hex-group IPv6 with one optional `::` compression and an
optional embedded IPv4 tail. -/

inductive IpAddr where
  | v4 (octets : List Nat)
  | v6 (octets : List Nat)
deriving DecidableEq, Repr

def IpAddr.octets : IpAddr → List Nat
  | .v4 o => o
  | .v6 o => o

/-- Derived `Ord for IpAddr`: all `V4` below all `V6`, octets compared
big-endian (i.e. lexicographically) within a variant. -/
def ipCompare : IpAddr → IpAddr → Ordering
  | .v4 a, .v4 b => listCompare a b
  | .v6 a, .v6 b => listCompare a b
  | .v4 _, .v6 _ => .lt
  | .v6 _, .v4 _ => .gt

/-- Split a byte list on a separator byte; always returns at least one
(possibly empty) group. -/
def splitOnByte (sep : Nat) : List Nat → List (List Nat)
  | [] => [[]]
  | c :: rest =>
    match splitOnByte sep rest with
    | [] => [[]]
    | g :: gs => if c == sep then [] :: g :: gs else (c :: g) :: gs

def digitsToNat (l : List Nat) : Nat :=
  l.foldl (fun acc c => acc * 10 + (c - 48)) 0

/-- One dotted-quad group: digits only, value at most 255, no leading
zero. -/
def parseV4Octet (g : List Nat) : Option Nat :=
  if g.isEmpty then none
  else if !(g.all isDigitB) then none
  else if 1 < g.length && g.headI == 48 then none
  else if digitsToNat g ≤ 255 then some (digitsToNat g) else none

/-- Model of `Ipv4Addr::from_str`. -/
def parseIpv4 (l : List Nat) : Option (List Nat) :=
  match splitOnByte 46 l with
  | [a, b, c, d] =>
    match parseV4Octet a, parseV4Octet b, parseV4Octet c, parseV4Octet d with
    | some a, some b, some c, some d => some [a, b, c, d]
    | _, _, _, _ => none
  | _ => none

def isHexDigitB (c : Nat) : Bool :=
  isDigitB c || (97 ≤ c && c ≤ 102) || (65 ≤ c && c ≤ 70)

def hexVal (c : Nat) : Nat :=
  if isDigitB c then c - 48
  else if 97 ≤ c && c ≤ 102 then c - 87
  else c - 55

/-- One IPv6 hex group of one to four hex digits. -/
def parseHexGroup (g : List Nat) : Option Nat :=
  if g.isEmpty || 4 < g.length || !(g.all isHexDigitB) then none
  else some (g.foldl (fun acc c => acc * 16 + hexVal c) 0)

/-- Parse a colon-separated group list into octets together with its
16-bit-group weight; a final group containing a dot may be an embedded
IPv4 address (counting as two groups). -/
def parseV6Groups : List (List Nat) → Option (List Nat × Nat)
  | [] => some ([], 0)
  | [g] =>
    if g.contains 46 then (parseIpv4 g).map (fun o => (o, 2))
    else (parseHexGroup g).map (fun v => ([v / 256, v % 256], 1))
  | g :: rest =>
    match parseHexGroup g, parseV6Groups rest with
    | some v, some (o, w) => some ([v / 256, v % 256] ++ o, w + 1)
    | _, _ => none

/-- Does the byte list contain two consecutive colons? -/
def hasDoubleColon : List Nat → Bool
  | 58 :: 58 :: _ => true
  | _ :: rest => hasDoubleColon rest
  | [] => false

/-- Split at the first `::`, returning the parts before and after. -/
def splitDoubleColon : List Nat → Option (List Nat × List Nat)
  | 58 :: 58 :: rest => some ([], rest)
  | c :: rest => (splitDoubleColon rest).map (fun p => (c :: p.1, p.2))
  | [] => none

/-- Model of `Ipv6Addr::from_str`. -/
def parseIpv6 (l : List Nat) : Option (List Nat) :=
  if !(l.contains 58) then none
  else if !(l.all fun c => isHexDigitB c || c == 58 || c == 46) then none
  else if l == [58, 58] then some (List.replicate 16 0)
  else
    match splitDoubleColon l with
    | some (pre, post) =>
      if hasDoubleColon pre || hasDoubleColon post then none
      else
        let pres := if pre.isEmpty then [] else splitOnByte 58 pre
        let posts := if post.isEmpty then [] else splitOnByte 58 post
        match parseV6Groups pres, parseV6Groups posts with
        | some (po, pw), some (qo, qw) =>
          if pw + qw ≤ 7 then
            some (po ++ List.replicate (2 * (8 - pw - qw)) 0 ++ qo)
          else none
        | _, _ => none
    | none =>
      match parseV6Groups (splitOnByte 58 l) with
      | some (o, w) => if w == 8 then some o else none
      | none => none

/-- Model of `IpAddr::from_str`: IPv4 first, then IPv6. -/
def parseIpAddr (l : List Nat) : Option IpAddr :=
  match parseIpv4 l with
  | some o => some (.v4 o)
  | none => (parseIpv6 l).map .v6

/-- Model of `u16::from_str` for ports: optional `+` sign, then decimal
digits, value at most 65535. -/
def parsePort (l : List Nat) : Option Nat :=
  let digits := if l.headI == 43 && 1 ≤ l.length then l.tail else l
  if digits.isEmpty || !(digits.all isDigitB) then none
  else if digitsToNat digits ≤ 65535 then some (digitsToNat digits) else none

/-- Split at the last colon (`rsplit_once(':')`). -/
def rsplitColon (l : List Nat) : Option (List Nat × List Nat) :=
  if l.contains 58 then
    let rev := l.reverse
    let port := (rev.takeWhile (fun c => !(c == 58))).reverse
    let host := (rev.dropWhile (fun c => !(c == 58))).tail.reverse
    some (host, port)
  else none

/-- Model of `SocketAddr::from_str`: `v4:port`, or `[v6]:port`. -/
def parseSocketAddr (l : List Nat) : Option (IpAddr × Nat) :=
  match rsplitColon l with
  | none => none
  | some (host, portStr) =>
    match parsePort portStr with
    | none => none
    | some port =>
      if host.headI == 91 && host.getLast? == some 93 then
        (parseIpv6 (host.tail.dropLast)).map (fun o => (.v6 o, port))
      else
        (parseIpv4 host).map (fun o => (.v4 o, port))

/-! ## `NodeAddress` (address.rs) -/

inductive Kind where
  | ip (a : IpAddr)
  | dns (d : DnsName)
deriving DecidableEq, Repr

/-- `Kind::cmp`: within a variant the natural comparisons; across variants
the IP's raw octets are compared against the DNS name's `as_str` bytes. -/
def Kind.cmp : Kind → Kind → Ordering
  | .ip a, .ip b => ipCompare a b
  | .dns a, .dns b => listCompare a.inner b.inner
  | .ip i, .dns d => listCompare i.octets (DnsName.asStr d)
  | .dns d, .ip i => listCompare (DnsName.asStr d) i.octets

structure NodeAddress where
  kind : Kind
  port : Nat
deriving DecidableEq, Repr

/-- `Ord for NodeAddress`: kind first, then port. -/
def NodeAddress.cmp (a b : NodeAddress) : Ordering :=
  match Kind.cmp a.kind b.kind with
  | .eq => natCmp a.port b.port
  | ord => ord

inductive ParseNodeAddressError where
  | missingPort
  | invalidDnsName
  | invalidPort
deriving DecidableEq, Repr

inductive NodeAddressError where
  | encodeBufferTooSmall
  | parse (e : ParseNodeAddressError)
  | corrupted
  | unknownAddressTag (t : Nat)
  | utf8Error
deriving DecidableEq, Repr

/-- `NodeAddress::from_str`: try a full socket-address parse, then a bare
IP parse (which yields `MissingPort`), then split at the last colon into
domain and port. -/
def NodeAddress.fromStr (s : List Nat) : Except ParseNodeAddressError NodeAddress :=
  match parseSocketAddr s with
  | some (ip, port) => .ok ⟨.ip ip, port⟩
  | none =>
    match parseIpAddr s with
    | some _ => .error .missingPort
    | none =>
      match rsplitColon s with
      | none => .error .missingPort
      | some (domain, portStr) =>
        match parsePort portStr with
        | none => .error .invalidPort
        | some port =>
          match DnsName.tryFrom domain with
          | none => .error .invalidDnsName
          | some dns => .ok ⟨.dns dns, port⟩

/-- `NodeAddress::try_from<(&str, u16)>`: an IP literal becomes an `Ip`
kind, anything else must validate as a DNS name. -/
def NodeAddress.tryFromPair (s : List Nat) (port : Nat) :
    Except ParseNodeAddressError NodeAddress :=
  match parseIpAddr s with
  | some ip => .ok ⟨.ip ip, port⟩
  | none =>
    match DnsName.tryFrom s with
    | some dns => .ok ⟨.dns dns, port⟩
    | none => .error .invalidDnsName

/-- `encoded_len`: 7 bytes for IPv4, 19 for IPv6, tag + length byte +
stored FQDN bytes + port for a domain. -/
def NodeAddress.encodedLen (a : NodeAddress) : Nat :=
  match a.kind with
  | .ip (.v4 _) => 1 + 4 + 2
  | .ip (.v6 _) => 1 + 16 + 2
  | .dns d => 1 + 1 + d.inner.length + 2

/-- The bytes a successful `NodeAddress::encode` writes: tag byte, payload,
big-endian port.  The domain length byte is `safe.len() as u8`. -/
def NodeAddress.encodeBytes (a : NodeAddress) : List Nat :=
  match a.kind with
  | .ip (.v4 o) => 4 :: o ++ u16be a.port
  | .ip (.v6 o) => 6 :: o ++ u16be a.port
  | .dns d => 0 :: (d.inner.length % 256) :: d.inner ++ u16be a.port

/-- `NodeAddress::encode` against a destination buffer of the given
length: fails with `EncodeBufferTooSmall` (writing nothing) when the
buffer is shorter than `encoded_len`, otherwise writes `encodeBytes` and
returns the written count. -/
def NodeAddress.encode (a : NodeAddress) (dstLen : Nat) :
    Except NodeAddressError (List Nat × Nat) :=
  if dstLen < a.encodedLen then .error .encodeBufferTooSmall
  else .ok (a.encodeBytes, a.encodedLen)

/-- `NodeAddress::decode` over a byte buffer. -/
def NodeAddress.decode (src : List Nat) :
    Except NodeAddressError (Nat × NodeAddress) :=
  match src with
  | [] => .error .corrupted
  | [_] => .error .corrupted
  | tag :: len :: rest =>
    if tag = 0 then
      if src.length < 2 + len + 2 then .error .corrupted
      else
        let payload := rest.take len
        if !(isValidUtf8 payload) then .error .utf8Error
        else
          let port := be16 (rest.drop len)
          match NodeAddress.tryFromPair payload port with
          | .ok a => .ok (2 + len + 2, a)
          | .error e => .error (.parse e)
    else if tag = 4 then
      if src.length < 1 + 4 + 2 then .error .corrupted
      else
        let body := len :: rest
        .ok (7, ⟨.ip (.v4 (body.take 4)), be16 (body.drop 4)⟩)
    else if tag = 6 then
      if src.length < 1 + 16 + 2 then .error .corrupted
      else
        let body := len :: rest
        .ok (19, ⟨.ip (.v6 (body.take 16)), be16 (body.drop 16)⟩)
    else .error (.unknownAddressTag tag)

/-- The `Display` impl's `Kind::Dns` arm: `"{as_str}:{port}"` (the `Ip`
arm delegates to the standard library's socket-address formatting and is
not modelled). -/
def NodeAddress.domainDisplay (a : NodeAddress) : Option (List Nat) :=
  match a.kind with
  | .ip _ => none
  | .dns d => some (DnsName.asStr d ++ [58] ++ natDecimal a.port)

/-- Outcome of running a reader-based decode against a byte stream:
either a panic of the underlying code, an `io::Error`, or a value. -/
inductive ReaderOutcome (α : Type) where
  | panic
  | ioError
  | ok (v : α)
deriving DecidableEq, Repr

/-- `NodeAddress::decode_from_reader` (the async variant is
byte-for-byte identical): reads a 7-byte prefix, then for the domain tag
computes `remaining = len + PORT_SIZE - READED` with `READED = 5` in
`usize` arithmetic.  When the length byte is below 3 that subtraction
underflows: a debug build panics at the subtraction and a release build
wraps and then panics indexing `domain[READED..READED + remaining]`, so
the model reports `panic` for those inputs. -/
def NodeAddress.decodeFromReader (stream : List Nat) :
    ReaderOutcome (Nat × NodeAddress) :=
  if stream.length < 7 then .ioError
  else
    let buf := stream.take 7
    if buf.headI = 0 then
      let len := buf.getD 1 0
      if len + 2 < 5 then .panic
      else
        let remaining := len + 2 - 5
        let addrLen := remaining + 5
        if stream.length < 7 + remaining then .ioError
        else
          let domain := (stream.drop 2).take addrLen
          let s := domain.take (addrLen - 2)
          if !(isValidUtf8 s) then .ioError
          else
            let port := be16 (domain.drop (addrLen - 2))
            match NodeAddress.tryFromPair s port with
            | .error _ => .ioError
            | .ok a => .ok (7 + remaining, a)
    else if buf.headI = 4 then
      .ok (7, ⟨.ip (.v4 ((stream.drop 1).take 4)), be16 (stream.drop 5)⟩)
    else if buf.headI = 6 then
      if stream.length < 19 then .ioError
      else .ok (19, ⟨.ip (.v6 ((stream.drop 1).take 16)), be16 (stream.drop 17)⟩)
    else .ioError

/-! ## `NodeId` (id.rs) -/

inductive NodeIdError where
  | empty
  | tooLarge (n : Nat)
  | encodeBufferTooSmall
  | corrupted
  | utf8Error
deriving DecidableEq, Repr

/-- An opaque identifier: the wrapped string's UTF-8 bytes. -/
structure NodeId where
  inner : List Nat
deriving DecidableEq, Repr

/-- `NodeId::MAX_SIZE`. -/
def NodeId.maxSize : Nat := 512

/-- `NodeId::new`: rejects the empty string and strings longer than
`MAX_SIZE` bytes, stores anything else unchanged. -/
def NodeId.new (src : List Nat) : Except NodeIdError NodeId :=
  if src.length == 0 then .error .empty
  else if NodeId.maxSize < src.length then .error (.tooLarge src.length)
  else .ok ⟨src⟩

/-- `NodeId::encoded_len`: two length bytes plus the id bytes. -/
def NodeId.encodedLen (id : NodeId) : Nat := 2 + id.inner.length

/-- The bytes `NodeId::encode` writes: big-endian `u16` length prefix
followed by the raw bytes. -/
def NodeId.encodeBytes (id : NodeId) : List Nat :=
  u16be id.inner.length ++ id.inner

/-- `NodeId::encode` against a buffer of the given length. -/
def NodeId.encode (id : NodeId) (dstLen : Nat) :
    Except NodeIdError (List Nat × Nat) :=
  if dstLen < id.encodedLen then .error .encodeBufferTooSmall
  else .ok (id.encodeBytes, id.encodedLen)

/-- `NodeId::decode`: length prefix, bounds check, UTF-8 check, then
re-validation through `NodeId::new`. -/
def NodeId.decode (src : List Nat) : Except NodeIdError (Nat × NodeId) :=
  if src.length < 2 then .error .corrupted
  else
    let len := be16 src
    if src.length < 2 + len then .error .corrupted
    else
      let payload := (src.drop 2).take len
      if !(isValidUtf8 payload) then .error .utf8Error
      else (NodeId.new payload).map (fun id => (2 + len, id))

/-! ## Punycode and the IDNA ToASCII model

`Domain::try_from_inner` delegates non-ASCII input to the external `idna`
crate.  Modelled from the spec: "Non-ASCII input: skip the above scan and
instead run Unicode IDNA ToASCII (`Hyphens::Allow`, DNS-length
verification) producing punycode (`xn--…`) labels; failure ⇒
`InvalidDomain`" — the RFC 3492 punycode encoder is implemented in full,
the UTS-46 mapping step is modelled as ASCII lowercasing with the
URL-ASCII deny list restricted to the letter/digit/hyphen/underscore
repertoire. -/

/-- RFC 3492 digit-to-character: `0..25 → a..z`, `26..35 → 0..9`. -/
def punyDigit (d : Nat) : Nat := if d < 26 then 97 + d else 22 + d

def punyAdaptGo (delta k : Nat) : Nat → Nat
  | 0 => k + 36 * delta / (delta + 38)
  | fuel + 1 =>
    if 455 < delta then punyAdaptGo (delta / 35) (k + 36) fuel
    else k + 36 * delta / (delta + 38)

/-- RFC 3492 bias adaptation. -/
def punyAdapt (delta numpoints : Nat) (firsttime : Bool) : Nat :=
  let d1 := delta / (if firsttime then 700 else 2)
  punyAdaptGo (d1 + d1 / numpoints) 0 64

/-- Emit the variable-length integer for one encoded code point. -/
def punyEncodeVar (q bias k : Nat) (fuel : Nat) (out : List Nat) : List Nat :=
  match fuel with
  | 0 => out
  | fuel + 1 =>
    let t := if k ≤ bias then 1 else if bias + 26 ≤ k then 26 else k - bias
    if q < t then out ++ [punyDigit q]
    else
      punyEncodeVar ((q - t) / (36 - t)) bias (k + 36) fuel
        (out ++ [punyDigit (t + (q - t) % (36 - t))])

/-- One pass over the input encoding every code point equal to `n`;
state is `(delta, bias, h, out)`. -/
def punyScan (b n : Nat) : List Nat → Nat → Nat → Nat → List Nat →
    Nat × Nat × Nat × List Nat
  | [], delta, bias, h, out => (delta, bias, h, out)
  | c :: rest, delta, bias, h, out =>
    if c < n then punyScan b n rest (delta + 1) bias h out
    else if c == n then
      let out' := punyEncodeVar delta bias 36 64 out
      let bias' := punyAdapt delta (h + 1) (h == b)
      punyScan b n rest 0 bias' (h + 1) out'
    else punyScan b n rest delta bias h out

/-- Smallest code point of the input that is at least `n`. -/
def minAbove (input : List Nat) (n : Nat) : Nat :=
  (input.filter (fun c => n ≤ c)).foldl min 0x110000

/-- Outer punycode loop; each iteration advances `h`, so fuel
`input.length + 1` always suffices. -/
def punyOuter (input : List Nat) (b n delta bias h : Nat) (out : List Nat) :
    Nat → List Nat
  | 0 => out
  | fuel + 1 =>
    if input.length ≤ h then out
    else
      let m := minAbove input n
      let delta1 := delta + (m - n) * (h + 1)
      match punyScan b m input delta1 bias h out with
      | (delta2, bias2, h2, out2) =>
        punyOuter input b (m + 1) (delta2 + 1) bias2 h2 out2 fuel

/-- RFC 3492 punycode encoding of a label's code points. -/
def punycodeEncode (input : List Nat) : List Nat :=
  let basic := input.filter (fun c => c < 128)
  let b := basic.length
  let out0 := basic ++ (if 0 < b then [45] else [])
  punyOuter input b 128 0 72 b out0 (input.length + 1)

/-- UTS-46 mapping model: lowercase ASCII letters, keep everything else. -/
def idnaMapChar (c : Nat) : Nat :=
  if 65 ≤ c && c ≤ 90 then c + 32 else c

/-- ASCII repertoire allowed inside a label after mapping (the URL
deny-list model); non-ASCII code points are left to punycode. -/
def idnaLabelAllowed (c : Nat) : Bool :=
  if c < 128 then isDigitB c || (97 ≤ c && c ≤ 122) || c == 45 || c == 95
  else true

/-- Encode one label: pure-ASCII labels are kept (lowercased), others
become `xn--` plus their punycode. -/
def encodeLabel (label : List Nat) : Option (List Nat) :=
  if !((label.map idnaMapChar).all idnaLabelAllowed) then none
  else if (label.map idnaMapChar).all (fun c => c < 128) then
    some (label.map idnaMapChar)
  else some ([120, 110, 45, 45] ++ punycodeEncode (label.map idnaMapChar))

def traverseOption (f : α → Option β) : List α → Option (List β)
  | [] => some []
  | a :: as =>
    match f a, traverseOption f as with
    | some b, some bs => some (b :: bs)
    | _, _ => none

/-- Join labels with dots. -/
def joinDots : List (List Nat) → List Nat
  | [] => []
  | [l] => l
  | l :: rest => l ++ 46 :: joinDots rest

/-- Modelled from the spec: the `idna` crate's `Uts46::to_ascii` with
`Hyphens::Allow` and DNS-length verification (`VerifyAllowRootDot`) —
split on dots allowing one root dot, encode each label, verify each
encoded label is 1–63 bytes and the whole name at most 253 bytes. -/
def idnaToAscii (input : List Nat) : Option (List Nat) :=
  match traverseOption encodeLabel
      (splitOnByte 46 (if endsWithDot input then input.dropLast else input)) with
  | none => none
  | some labels =>
    if labels.all (fun l => 1 ≤ l.length && l.length ≤ 63)
        && (joinDots labels).length ≤ 253 then
      some (joinDots labels ++ (if endsWithDot input then [46] else []))
    else none

/-! ## `Domain` (domain.rs) -/

/-- A validated domain as stored by `Domain` (the wrapped `SmolStr`). -/
structure Domain where
  inner : List Nat
deriving DecidableEq, Repr

/-- `Domain::as_str`. -/
def Domain.asStr (d : Domain) : List Nat := trimDots d.inner

/-- `Domain::fqdn_str`. -/
def Domain.fqdnStr (d : Domain) : List Nat := d.inner

/-- `PartialEq for Domain`: equality of `as_str` views. -/
def Domain.eqv (a b : Domain) : Bool := a.asStr == b.asStr

/-- `Ord for Domain`: comparison of `as_str` views. -/
def Domain.cmp (a b : Domain) : Ordering :=
  listCompare a.asStr b.asStr

/-- `Domain::try_from_inner`: ASCII fast path through the validator with
a trailing dot appended when missing; non-ASCII input through the IDNA
ToASCII model, again appending a trailing dot when missing. -/
def Domain.tryFromInner (domain : List Nat) : Option Domain :=
  if domain.all (fun c => c < 128) then
    if domainValidate domain then
      if endsWithDot domain then some ⟨domain⟩
      else some ⟨domain ++ [46]⟩
    else none
  else
    match idnaToAscii domain with
    | none => none
    | some v =>
      if endsWithDot v then some ⟨v⟩
      else some ⟨v ++ [46]⟩

/-! ## `DomainRef` and `HostAddrRef` (domain_ref.rs, address_ref.rs) -/

/-- A borrowed validated domain: the source str plus the recorded
`is_fqdn`/`is_idn` flags. -/
structure DomainRef where
  data : List Nat
  fqdn : Bool
  idn : Bool
deriving DecidableEq, Repr

/-- `DomainRef::as_str`. -/
def DomainRef.asStr (d : DomainRef) : List Nat := trimDots d.data

/-- `PartialEq for DomainRef`: equality of `as_str` views. -/
def DomainRef.eqv (a b : DomainRef) : Bool := a.asStr == b.asStr

/-- `Ord for DomainRef`: comparison of `as_str` views. -/
def DomainRef.cmp (a b : DomainRef) : Ordering :=
  listCompare a.asStr b.asStr

/-- `address_ref.rs`'s `Repr`: an IP or a borrowed domain. -/
inductive HostRepr where
  | ip (a : IpAddr)
  | domainRef (d : DomainRef)
deriving DecidableEq, Repr

/-- Derived `PartialEq for Repr` (which uses `DomainRef`'s custom
`PartialEq`). -/
def HostRepr.eqv : HostRepr → HostRepr → Bool
  | .ip a, .ip b => a == b
  | .domainRef a, .domainRef b => DomainRef.eqv a b
  | _, _ => false

/-- `Repr::cmp`: `Ip` strictly before `DomainRef`, natural comparisons
within a variant. -/
def HostRepr.cmp : HostRepr → HostRepr → Ordering
  | .ip a, .ip b => ipCompare a b
  | .domainRef a, .domainRef b => DomainRef.cmp a b
  | .ip _, .domainRef _ => .lt
  | .domainRef _, .ip _ => .gt

structure HostAddrRef where
  kind : HostRepr
  port : Nat
deriving DecidableEq, Repr

/-- Derived `PartialEq for HostAddrRef`. -/
def HostAddrRef.eqv (a b : HostAddrRef) : Bool :=
  HostRepr.eqv a.kind b.kind && a.port == b.port

/-- `Ord for HostAddrRef`: kind first, then port. -/
def HostAddrRef.cmp (a b : HostAddrRef) : Ordering :=
  match HostRepr.cmp a.kind b.kind with
  | .eq => natCmp a.port b.port
  | ord => ord

/-! ## The resolution cache and `HostAddrResolver::resolve`
(resolver/impls.rs, resolver/impls/address.rs)

Time is modelled by an explicit `now` instant (`Instant` arithmetic is
monotone and saturating, matching truncated natural subtraction), and the
pluggable name-resolution backend by the address list it returns. -/

/-- A resolved socket address. -/
structure SockAddr where
  ip : IpAddr
  port : Nat
deriving DecidableEq, Repr

/-- `CachedSocketAddr`. -/
structure CachedSocketAddr where
  val : SockAddr
  born : Nat
  ttl : Nat
deriving DecidableEq, Repr

/-- `CachedSocketAddr::is_expired`: `born.elapsed() > ttl`. -/
def CachedSocketAddr.isExpired (c : CachedSocketAddr) (now : Nat) : Bool :=
  c.ttl < now - c.born

/-- The skip-list cache keyed by the domain's `as_str` bytes. -/
def ResolverCache := List (List Nat × CachedSocketAddr)

/-- `cache.get(name)`. -/
def cacheGet (cache : ResolverCache) (key : List Nat) : Option CachedSocketAddr :=
  match cache with
  | [] => none
  | e :: rest => if e.1 == key then some e.2 else cacheGet rest key

/-- `entry.remove()`. -/
def cacheRemove (cache : ResolverCache) (key : List Nat) : ResolverCache :=
  match cache with
  | [] => []
  | e :: rest =>
    if e.1 == key then cacheRemove rest key else e :: cacheRemove rest key

/-- `cache.insert(name, value)`: the last writer for a key wins. -/
def cacheInsert (cache : ResolverCache) (key : List Nat)
    (v : CachedSocketAddr) : ResolverCache :=
  (key, v) :: cacheRemove cache key

/-- The address being resolved, as produced by `address.as_ref()`:
either a socket address or a `(port, domain)` pair (the domain given by
its `as_str` key). -/
inductive HostAddrInput where
  | ip (a : SockAddr)
  | domain (port : Nat) (name : List Nat)
deriving DecidableEq, Repr

/-- Result of a `resolve` call: the returned value or the `NotFound`
error (which names the domain), the cache afterwards, and whether the
resolution backend was invoked. -/
structure ResolveState where
  result : Except (List Nat) SockAddr
  cache : ResolverCache
  backendInvoked : Bool

/-- The backend branch of `resolve`: take the first returned address and
insert it with `born = now`, or fail with `NotFound` on zero results. -/
def resolveViaBackend (cache : ResolverCache) (ttl now : Nat)
    (backend : List SockAddr) (name : List Nat) : ResolveState :=
  match backend with
  | addr :: _ => ⟨.ok addr, cacheInsert cache name ⟨addr, now, ttl⟩, true⟩
  | [] => ⟨.error name, cache, true⟩

/-- `HostAddrResolver::resolve`: IPs return immediately; domains hit the
cache, serve unexpired entries, lazily evict expired ones, and fall back
to the backend. -/
def resolve (cache : ResolverCache) (ttl now : Nat)
    (backend : List SockAddr) : HostAddrInput → ResolveState
  | .ip a => ⟨.ok a, cache, false⟩
  | .domain _ name =>
    match cacheGet cache name with
    | some ent =>
      if !(ent.isExpired now) then ⟨.ok ent.val, cache, false⟩
      else resolveViaBackend (cacheRemove cache name) ttl now backend name
    | none => resolveViaBackend cache ttl now backend name

/-! ## Order-theoretic lemmas about the comparison functions -/

theorem listCompare_refl (l : List Nat) : listCompare l l = .eq := by
  induction l with
  | nil => rfl
  | cons a as ih => simp [listCompare, ih]

theorem listCompare_eq_iff : ∀ a b : List Nat, listCompare a b = .eq ↔ a = b := by
  intro a
  induction a with
  | nil => intro b; cases b <;> simp [listCompare]
  | cons x xs ih =>
    intro b
    cases b with
    | nil => simp [listCompare]
    | cons y ys =>
      by_cases hxy : x < y
      · simp [listCompare, hxy]
        omega
      · by_cases hyx : y < x
        · simp [listCompare, hxy, hyx]
          omega
        · have hxyeq : x = y := by omega
          simp [listCompare, hxy, hyx, hxyeq, ih ys]

theorem listCompare_swap : ∀ a b : List Nat, listCompare b a = (listCompare a b).swap := by
  intro a
  induction a with
  | nil => intro b; cases b <;> simp [listCompare, Ordering.swap]
  | cons x xs ih =>
    intro b
    cases b with
    | nil => simp [listCompare, Ordering.swap]
    | cons y ys =>
      by_cases hxy : x < y
      · have : ¬ y < x := by omega
        simp [listCompare, hxy, this, Ordering.swap]
      · by_cases hyx : y < x
        · simp [listCompare, hxy, hyx, Ordering.swap]
        · simp [listCompare, hxy, hyx, ih ys]

theorem listCompare_lt_trans :
    ∀ a b c : List Nat, listCompare a b = .lt → listCompare b c = .lt →
      listCompare a c = .lt := by
  intro a
  induction a with
  | nil =>
    intro b c hab hbc
    cases b with
    | nil => cases c <;> simp_all [listCompare]
    | cons y ys =>
      cases c with
      | nil => simp_all [listCompare]
      | cons z zs => simp [listCompare]
  | cons x xs ih =>
    intro b c hab hbc
    cases b with
    | nil => simp [listCompare] at hab
    | cons y ys =>
      cases c with
      | nil => simp [listCompare] at hbc
      | cons z zs =>
        simp only [listCompare] at hab hbc ⊢
        by_cases hxy : x < y
        · by_cases hyz : y < z
          · have hxz : x < z := by omega
            simp [hxz]
          · by_cases hzy : z < y
            · simp [hyz, hzy] at hbc
            · have : y = z := by omega
              subst this
              simp [hxy]
        · by_cases hyx : y < x
          · simp [hxy, hyx] at hab
          · have : x = y := by omega
            subst this
            simp only [Nat.lt_irrefl, if_false] at hab
            by_cases hyz : x < z
            · simp [hyz]
            · by_cases hzy : z < x
              · simp [hyz, hzy] at hbc
              · have : x = z := by omega
                subst this
                simp only [Nat.lt_irrefl, if_false] at hbc ⊢
                exact ih ys zs hab hbc

theorem natCmp_refl (a : Nat) : natCmp a a = .eq := by simp [natCmp]

theorem natCmp_eq_iff (a b : Nat) : natCmp a b = .eq ↔ a = b := by
  unfold natCmp
  split <;> try split
  all_goals simp_all <;> omega

theorem natCmp_swap (a b : Nat) : natCmp b a = (natCmp a b).swap := by
  unfold natCmp
  rcases Nat.lt_trichotomy a b with h | h | h
  · have h2 : ¬ b < a := by omega
    simp [h, h2, Ordering.swap]
  · subst h
    simp [Ordering.swap]
  · have h2 : ¬ a < b := by omega
    simp [h, h2, Ordering.swap]

theorem natCmp_lt_trans (a b c : Nat) :
    natCmp a b = .lt → natCmp b c = .lt → natCmp a c = .lt := by
  unfold natCmp
  intro h1 h2
  split at h1 <;> split at h2 <;> simp_all <;> omega

theorem ipCompare_refl (a : IpAddr) : ipCompare a a = .eq := by
  cases a <;> simp [ipCompare, listCompare_refl]

theorem ipCompare_eq_iff (a b : IpAddr) : ipCompare a b = .eq ↔ a = b := by
  cases a <;> cases b <;> simp [ipCompare, listCompare_eq_iff]

theorem ipCompare_swap (a b : IpAddr) : ipCompare b a = (ipCompare a b).swap := by
  cases a <;> cases b <;>
    first
      | (simp only [ipCompare]; rw [listCompare_swap])
      | rfl

theorem ipCompare_lt_trans (a b c : IpAddr) :
    ipCompare a b = .lt → ipCompare b c = .lt → ipCompare a c = .lt := by
  intro h1 h2
  cases a <;> cases b <;> cases c <;>
    simp only [ipCompare] at h1 h2 ⊢ <;>
    first
      | rfl
      | trivial
      | exact listCompare_lt_trans _ _ _ h1 h2

theorem hostRepr_cmp_refl (a : HostRepr) : HostRepr.cmp a a = .eq := by
  cases a <;> simp [HostRepr.cmp, ipCompare_refl, DomainRef.cmp, listCompare_refl]

theorem hostRepr_cmp_eq_iff (a b : HostRepr) :
    HostRepr.cmp a b = .eq ↔ HostRepr.eqv a b = true := by
  cases a <;> cases b <;>
    simp [HostRepr.cmp, HostRepr.eqv, ipCompare_eq_iff, DomainRef.cmp,
      DomainRef.eqv, listCompare_eq_iff]

theorem hostRepr_cmp_swap (a b : HostRepr) :
    HostRepr.cmp b a = (HostRepr.cmp a b).swap := by
  cases a <;> cases b <;>
    first
      | (simp only [HostRepr.cmp]; rw [ipCompare_swap])
      | (simp only [HostRepr.cmp, DomainRef.cmp]; rw [listCompare_swap])
      | rfl

theorem hostRepr_cmp_lt_trans (a b c : HostRepr) :
    HostRepr.cmp a b = .lt → HostRepr.cmp b c = .lt → HostRepr.cmp a c = .lt := by
  intro h1 h2
  cases a <;> cases b <;> cases c <;>
    simp only [HostRepr.cmp, DomainRef.cmp] at h1 h2 ⊢ <;>
    first
      | rfl
      | trivial
      | exact ipCompare_lt_trans _ _ _ h1 h2
      | exact listCompare_lt_trans _ _ _ h1 h2

/-! ## Well-formedness of IP payloads (the Rust types fix the octet
counts that the list embedding leaves open) -/

def IpAddr.wf : IpAddr → Prop
  | .v4 o => o.length = 4
  | .v6 o => o.length = 16

def NodeAddress.wf (a : NodeAddress) : Prop :=
  match a.kind with
  | .ip i => i.wf
  | .dns _ => True

/-! ## Claim theorems -/

/-- C1: the round-trip property fails on the code.  The address parsed
from `"absolute.:8080"` is constructible (via `FromStr`), stores the
domain as `"absolute.."` (the short-input buffer path appends a second
trailing dot), and buffer-decoding its own encoding is rejected by the
re-validation with `InvalidDnsName` instead of returning the original
value. -/
theorem roundtrip_fails_for_short_fqdn_domain :
    NodeAddress.fromStr (cp "absolute.:8080") =
      .ok ⟨.dns ⟨cp "absolute.."⟩, 8080⟩
    ∧ NodeAddress.encode ⟨.dns ⟨cp "absolute.."⟩, 8080⟩ 14 =
      .ok (0 :: 10 :: cp "absolute.." ++ [31, 144], 14)
    ∧ NodeAddress.decode (0 :: 10 :: cp "absolute.." ++ [31, 144]) =
      .error (.parse .invalidDnsName) := by
  refine ⟨rfl, rfl, rfl⟩

/-- C2 (counterexample): parsing `"www.example.com:8080"` does not yield
a domain stored in canonical FQDN form `"www.example.com."`, and the
encoding is not the claimed `[0x00, 0x11, "www.example.com.", 0x1F, 0x90]`
byte sequence (the short-input storage path keeps the name without any
trailing dot, so the length byte is 15). -/
theorem www_example_counterexample :
    NodeAddress.fromStr (cp "www.example.com:8080") =
      .ok ⟨.dns ⟨cp "www.example.com"⟩, 8080⟩
    ∧ (⟨.dns ⟨cp "www.example.com"⟩, 8080⟩ : NodeAddress) ≠
      ⟨.dns ⟨cp "www.example.com."⟩, 8080⟩
    ∧ NodeAddress.encodeBytes ⟨.dns ⟨cp "www.example.com"⟩, 8080⟩ ≠
      0 :: 17 :: cp "www.example.com." ++ [31, 144] := by
  refine ⟨rfl, by decide, by decide⟩

/-- C2 (amended): parsing `"www.example.com:8080"` yields the domain
variant storing `"www.example.com"` (no trailing dot) with port 8080;
`to_string` renders `"www.example.com:8080"`; and the binary encoding is
exactly `[0x00, 0x0F, <15 bytes "www.example.com">, 0x1F, 0x90]`,
19 bytes in total. -/
theorem www_example_concrete_scenario :
    NodeAddress.fromStr (cp "www.example.com:8080") =
      .ok ⟨.dns ⟨cp "www.example.com"⟩, 8080⟩
    ∧ NodeAddress.domainDisplay ⟨.dns ⟨cp "www.example.com"⟩, 8080⟩ =
      some (cp "www.example.com:8080")
    ∧ NodeAddress.encodeBytes ⟨.dns ⟨cp "www.example.com"⟩, 8080⟩ =
      0 :: 15 :: cp "www.example.com" ++ [31, 144]
    ∧ NodeAddress.encodedLen ⟨.dns ⟨cp "www.example.com"⟩, 8080⟩ = 19 := by
  refine ⟨rfl, rfl, by decide, by decide⟩

/-- C4 (counterexample): `Kind::cmp` compares raw IPv4 octets against the
domain's `as_str` bytes across kinds, so the IP address `97.97.97.97` and
the constructible domain `"aaaa"` (same port) compare `Equal` while being
unequal values — the comparison does not agree with `Eq`. -/
theorem node_address_cmp_equal_on_unequal :
    NodeAddress.cmp ⟨.ip (.v4 [97, 97, 97, 97]), 1⟩ ⟨.dns ⟨cp "aaaa"⟩, 1⟩ = .eq
    ∧ (⟨.ip (.v4 [97, 97, 97, 97]), 1⟩ : NodeAddress) ≠ ⟨.dns ⟨cp "aaaa"⟩, 1⟩
    ∧ DnsName.tryFrom (cp "aaaa") = some ⟨cp "aaaa"⟩ := by
  refine ⟨by decide, by decide, by decide⟩


/-- C4 (amended): the `HostAddrRef` comparison (`Repr::cmp`) is a lawful
total order on `(kind, port)` that orders `Ip` variants strictly before
`Domain` variants: it is reflexive, antisymmetric (swapping arguments
swaps the ordering), transitive, every pair is comparable by totality of
`Ordering`, and it returns `Equal` exactly on `PartialEq`-equal values. -/
theorem hostRepr_cmp_congr_left {a b : HostRepr} (h : HostRepr.cmp a b = .eq)
    (x : HostRepr) : HostRepr.cmp a x = HostRepr.cmp b x := by
  cases a <;> cases b <;> simp only [HostRepr.cmp, DomainRef.cmp] at h
  case ip.ip =>
    rw [ipCompare_eq_iff] at h
    rw [h]
  case domainRef.domainRef =>
    rw [listCompare_eq_iff] at h
    cases x
    · rfl
    · simp only [HostRepr.cmp, DomainRef.cmp, h]
  all_goals cases h

theorem hostRepr_cmp_congr_right {b c : HostRepr} (h : HostRepr.cmp b c = .eq)
    (x : HostRepr) : HostRepr.cmp x b = HostRepr.cmp x c := by
  rw [hostRepr_cmp_swap b x, hostRepr_cmp_swap c x, hostRepr_cmp_congr_left h x]

theorem host_addr_ref_total_order :
    (∀ a : HostAddrRef, HostAddrRef.cmp a a = .eq)
    ∧ (∀ a b : HostAddrRef, HostAddrRef.cmp a b = .eq ↔ HostAddrRef.eqv a b = true)
    ∧ (∀ a b : HostAddrRef, HostAddrRef.cmp b a = (HostAddrRef.cmp a b).swap)
    ∧ (∀ a b c : HostAddrRef, HostAddrRef.cmp a b = .lt →
        HostAddrRef.cmp b c = .lt → HostAddrRef.cmp a c = .lt)
    ∧ (∀ i : IpAddr, ∀ d : DomainRef, ∀ p q : Nat,
        HostAddrRef.cmp ⟨.ip i, p⟩ ⟨.domainRef d, q⟩ = .lt) := by
  refine ⟨?_, ?_, ?_, ?_, ?_⟩
  · intro a
    simp [HostAddrRef.cmp, hostRepr_cmp_refl, natCmp_refl]
  · intro a b
    unfold HostAddrRef.cmp HostAddrRef.eqv
    cases hk : HostRepr.cmp a.kind b.kind
    case lt =>
      have hne : ¬ HostRepr.eqv a.kind b.kind = true := by
        rw [← hostRepr_cmp_eq_iff, hk]
        simp
      simp [hne]
    case eq =>
      have he : HostRepr.eqv a.kind b.kind = true := (hostRepr_cmp_eq_iff _ _).1 hk
      simp [he, natCmp_eq_iff]
    case gt =>
      have hne : ¬ HostRepr.eqv a.kind b.kind = true := by
        rw [← hostRepr_cmp_eq_iff, hk]
        simp
      simp [hne]
  · intro a b
    unfold HostAddrRef.cmp
    rw [hostRepr_cmp_swap]
    cases hk : HostRepr.cmp a.kind b.kind
    case lt => rfl
    case eq =>
      show natCmp b.port a.port = (natCmp a.port b.port).swap
      exact natCmp_swap a.port b.port
    case gt => rfl
  · intro a b c h1 h2
    unfold HostAddrRef.cmp at h1 h2 ⊢
    cases hab : HostRepr.cmp a.kind b.kind <;> rw [hab] at h1
    case lt =>
      cases hbc : HostRepr.cmp b.kind c.kind <;> rw [hbc] at h2
      case lt => rw [hostRepr_cmp_lt_trans _ _ _ hab hbc]
      case eq => rw [← hostRepr_cmp_congr_right hbc a.kind, hab]
      case gt => simp at h2
    case eq =>
      cases hbc : HostRepr.cmp b.kind c.kind <;> rw [hbc] at h2
      case lt => rw [hostRepr_cmp_congr_left hab c.kind, hbc]
      case eq =>
        rw [hostRepr_cmp_congr_left hab c.kind, hbc]
        exact natCmp_lt_trans _ _ _ h1 h2
      case gt => simp at h2
    case gt => simp at h1
  · intro i d p q
    simp [HostAddrRef.cmp, HostRepr.cmp]

/-- C5: `decode_from_reader` (and its identical async twin) panics on
malformed input instead of returning a `Result`: a domain-tagged record
whose 1-byte length field is 0 (or any value below 3) drives the
`len + PORT_SIZE - READED` subtraction below zero, which panics in debug
builds and, after wrapping, panics on the slice index in release builds.
The buffer-based `decode` on the same bytes returns an error as the claim
requires, showing the reader path alone is at fault. -/
theorem reader_decode_panics_on_small_length_byte :
    NodeAddress.decodeFromReader [0, 0, 0, 0, 0, 0, 0] = .panic
    ∧ NodeAddress.decodeFromReader [0, 2, 97, 46, 99, 111, 109] = .panic
    ∧ NodeAddress.decode [0, 0, 0, 0, 0, 0, 0] =
      .error (.parse .invalidDnsName) := by
  refine ⟨rfl, rfl, rfl⟩

/-- C10 (counterexample): a domain-tagged (tag 0) wire record whose
payload is the IP literal `"1.2.3.4"` — a payload the domain validator
rejects — is decoded successfully (as an `Ip`-kind address) instead of
being rejected, because the tag-0 branch re-parses through
`try_from((&str, u16))`, which tries an IP-literal parse first. -/
theorem decode_tag0_accepts_invalid_domain_payload :
    NodeAddress.decode (0 :: 7 :: cp "1.2.3.4" ++ [0, 80]) =
      .ok (11, ⟨.ip (.v4 [1, 2, 3, 4]), 80⟩)
    ∧ dnsValidate (cp "1.2.3.4") = false := by
  refine ⟨rfl, by decide⟩

/-- C7: the domain validator truth table — `"localhost"` accepted,
`"-bad.com"` rejected (leading hyphen), a 64-byte label rejected,
`"1.2.3.4"` rejected (purely numeric final label), any name longer than
253 bytes rejected, and the non-ASCII `"测试.com"` accepted through the
IDNA model, normalizing to `"xn--0zwm56d.com"`. -/
theorem domain_validator_truth_table :
    domainValidate (cp "localhost") = true
    ∧ domainValidate (cp "-bad.com") = false
    ∧ domainValidate (List.replicate 64 97 ++ cp ".com") = false
    ∧ domainValidate (cp "1.2.3.4") = false
    ∧ Domain.tryFromInner (cp "测试.com") = some ⟨cp "xn--0zwm56d.com."⟩
    ∧ (Domain.tryFromInner (cp "测试.com")).map Domain.asStr =
      some (cp "xn--0zwm56d.com")
    ∧ (∀ l : List Nat, 253 < l.length → domainValidate l = false) := by
  refine ⟨by decide, by decide, by decide, by decide, by decide, by decide, ?_⟩
  intro l h
  simp [domainValidate, h]

/-- Witness for C7 at a concrete 254-byte name. -/
theorem domain_validator_truth_table_witness :
    253 < (List.replicate 254 97).length
    ∧ domainValidate (List.replicate 254 97) = false :=
  ⟨by decide,
    domain_validator_truth_table.2.2.2.2.2.2 (List.replicate 254 97) (by decide)⟩

/-- C3: for every well-formed address (IP octet lists of the length the
Rust types fix) and every identifier, `encoded_len` equals both the
number of bytes `encode` writes and the count it returns, and encoding
into a buffer one byte shorter fails with `EncodeBufferTooSmall` without
producing any bytes. -/
theorem encoded_len_exact (a : NodeAddress) (ha : a.wf) (id : NodeId) :
    a.encodeBytes.length = a.encodedLen
    ∧ a.encode a.encodedLen = .ok (a.encodeBytes, a.encodedLen)
    ∧ a.encode (a.encodedLen - 1) = .error .encodeBufferTooSmall
    ∧ id.encodeBytes.length = id.encodedLen
    ∧ id.encode id.encodedLen = .ok (id.encodeBytes, id.encodedLen)
    ∧ id.encode (id.encodedLen - 1) = .error .encodeBufferTooSmall := by
  have hpos : 0 < a.encodedLen := by
    obtain ⟨k, p⟩ := a
    cases k with
    | ip i => cases i <;> simp [NodeAddress.encodedLen]
    | dns d => simp [NodeAddress.encodedLen]
  refine ⟨?_, ?_, ?_, ?_, ?_, ?_⟩
  · obtain ⟨k, p⟩ := a
    cases k with
    | ip i =>
      cases i with
      | v4 o =>
        have ho : o.length = 4 := ha
        simp [NodeAddress.encodeBytes, NodeAddress.encodedLen, u16be, ho]
      | v6 o =>
        have ho : o.length = 16 := ha
        simp [NodeAddress.encodeBytes, NodeAddress.encodedLen, u16be, ho]
    | dns d =>
      simp [NodeAddress.encodeBytes, NodeAddress.encodedLen, u16be]
      omega
  · simp [NodeAddress.encode]
  · simp only [NodeAddress.encode]
    rw [if_pos (by omega)]
  · simp [NodeId.encodeBytes, NodeId.encodedLen, u16be]
    omega
  · simp [NodeId.encode]
  · simp only [NodeId.encode]
    rw [if_pos (by simp [NodeId.encodedLen])]

/-- Witness for C3 at a concrete IPv4 address and identifier. -/
theorem encoded_len_exact_witness :
    (⟨.ip (.v4 [127, 0, 0, 1]), 80⟩ : NodeAddress).wf
    ∧ ((⟨.ip (.v4 [127, 0, 0, 1]), 80⟩ : NodeAddress).encodeBytes.length =
        (⟨.ip (.v4 [127, 0, 0, 1]), 80⟩ : NodeAddress).encodedLen
      ∧ (⟨.ip (.v4 [127, 0, 0, 1]), 80⟩ : NodeAddress).encode 7 =
        .ok ((⟨.ip (.v4 [127, 0, 0, 1]), 80⟩ : NodeAddress).encodeBytes, 7)
      ∧ (⟨.ip (.v4 [127, 0, 0, 1]), 80⟩ : NodeAddress).encode 6 =
        .error .encodeBufferTooSmall
      ∧ (⟨[110, 111, 100, 101]⟩ : NodeId).encodeBytes.length =
        (⟨[110, 111, 100, 101]⟩ : NodeId).encodedLen
      ∧ (⟨[110, 111, 100, 101]⟩ : NodeId).encode 6 =
        .ok ((⟨[110, 111, 100, 101]⟩ : NodeId).encodeBytes, 6)
      ∧ (⟨[110, 111, 100, 101]⟩ : NodeId).encode 5 =
        .error .encodeBufferTooSmall) :=
  ⟨rfl, encoded_len_exact ⟨.ip (.v4 [127, 0, 0, 1]), 80⟩ rfl ⟨[110, 111, 100, 101]⟩⟩

/-- C8: identifier construction is bounded and never empty — the empty
string fails with `Empty`, anything over 512 bytes fails with
`TooLarge`, anything of 1 to 512 bytes is accepted unchanged — and
`decode` rejects a length prefix exceeding the available bytes with
`Corrupted` and a non-UTF-8 payload with `Utf8Error`. -/
theorem node_id_bounds_and_decode_errors
    (big ok srcC srcU : List Nat) :
    NodeId.new [] = .error .empty
    ∧ (512 < big.length → NodeId.new big = .error (.tooLarge big.length))
    ∧ (1 ≤ ok.length → ok.length ≤ 512 → NodeId.new ok = .ok ⟨ok⟩)
    ∧ (2 ≤ srcC.length → srcC.length < 2 + be16 srcC →
        NodeId.decode srcC = .error .corrupted)
    ∧ (2 + be16 srcU ≤ srcU.length →
        isValidUtf8 ((srcU.drop 2).take (be16 srcU)) = false →
        NodeId.decode srcU = .error .utf8Error) := by
  refine ⟨rfl, ?_, ?_, ?_, ?_⟩
  · intro h
    have h0 : (big.length == 0) = false := by
      simp only [beq_eq_false_iff_ne, ne_eq]
      omega
    have h1 : NodeId.maxSize < big.length := h
    simp [NodeId.new, h0, h1]
  · intro hlo hhi
    have h0 : (ok.length == 0) = false := by
      simp only [beq_eq_false_iff_ne, ne_eq]
      omega
    have h1 : ¬ (NodeId.maxSize < ok.length) := by simp [NodeId.maxSize]; omega
    simp [NodeId.new, h0, h1]
  · intro h1 h2
    have hA : ¬ (srcC.length < 2) := by omega
    simp [NodeId.decode, hA, h2]
  · intro h1 h2
    have hA : ¬ (srcU.length < 2) := by omega
    have hB : ¬ (srcU.length < 2 + be16 srcU) := by omega
    simp [NodeId.decode, hA, hB, h2]

/-- Witness for C8 at concrete inputs: a 513-byte id, a 1-byte id, a
truncated wire record and a non-UTF-8 wire record. -/
theorem node_id_bounds_witness :
    NodeId.new (List.replicate 513 97) =
      .error (.tooLarge (List.replicate 513 97).length)
    ∧ NodeId.new [97] = .ok ⟨[97]⟩
    ∧ NodeId.decode [0, 2, 97] = .error .corrupted
    ∧ NodeId.decode [0, 1, 255] = .error .utf8Error := by
  have h := node_id_bounds_and_decode_errors (List.replicate 513 97) [97]
    [0, 2, 97] [0, 1, 255]
  exact ⟨h.2.1 (by simp), h.2.2.1 (by simp) (by simp),
    h.2.2.2.1 (by decide) (by decide), h.2.2.2.2 (by decide) (by decide)⟩

/-- Witness for C4's total-order theorem: transitivity discharged at an
IPv4 address, an IPv6 address and a domain reference. -/
theorem host_addr_ref_total_order_witness :
    HostAddrRef.cmp ⟨.ip (.v4 [1, 2, 3, 4]), 80⟩
        ⟨.ip (.v6 (List.replicate 16 0)), 80⟩ = .lt
    ∧ HostAddrRef.cmp ⟨.ip (.v6 (List.replicate 16 0)), 80⟩
        ⟨.domainRef ⟨cp "example.com", false, false⟩, 80⟩ = .lt
    ∧ HostAddrRef.cmp ⟨.ip (.v4 [1, 2, 3, 4]), 80⟩
        ⟨.domainRef ⟨cp "example.com", false, false⟩, 80⟩ = .lt :=
  ⟨by decide, by decide,
    host_addr_ref_total_order.2.2.2.1 ⟨.ip (.v4 [1, 2, 3, 4]), 80⟩
      ⟨.ip (.v6 (List.replicate 16 0)), 80⟩
      ⟨.domainRef ⟨cp "example.com", false, false⟩, 80⟩
      (by decide) (by decide)⟩

theorem dnsName_tryFrom_some_validate {v : List Nat} {d : DnsName}
    (h : DnsName.tryFrom v = some d) : dnsValidate v = true := by
  by_cases hv : dnsValidate v
  · exact hv
  · simp [DnsName.tryFrom, hv] at h

/-- C10 (amended): the tag-0 decode branch re-validates its payload —
whenever decode succeeds on a domain-tagged record with a `Dns`-kind
result, the payload passed the DNS-syntax validator, and a payload that
neither parses as an IP literal nor passes validation makes decode
return an error. -/
theorem decode_tag0_revalidates_domain :
    (∀ len rest n a, NodeAddress.decode (0 :: len :: rest) = .ok (n, a) →
      ∀ d, a.kind = .dns d → dnsValidate (rest.take len) = true)
    ∧ (∀ len rest, dnsValidate (rest.take len) = false →
        parseIpAddr (rest.take len) = none →
        (NodeAddress.decode (0 :: len :: rest)).isOk = false) := by
  constructor
  · intro len rest n a hdec d hk
    simp only [NodeAddress.decode, reduceIte] at hdec
    split at hdec
    · cases hdec
    · split at hdec
      · cases hdec
      · split at hdec
        case _ a' heq =>
          cases hdec
          unfold NodeAddress.tryFromPair at heq
          cases hip : parseIpAddr (List.take len rest) with
          | some ip =>
            simp only [hip] at heq
            cases heq
            cases hk
          | none =>
            simp only [hip] at heq
            cases htf : DnsName.tryFrom (List.take len rest) with
            | none => simp [htf] at heq
            | some dns => exact dnsName_tryFrom_some_validate htf
        case _ e heq => cases hdec
  · intro len rest hval hip
    simp only [NodeAddress.decode, reduceIte]
    split
    · rfl
    · split
      · rfl
      · have htf : DnsName.tryFrom (List.take len rest) = none := by
          simp [DnsName.tryFrom, hval]
        simp only [NodeAddress.tryFromPair, hip, htf]
        rfl

/-- Witness for C10's amended theorem: a decoded record holding the
domain `"a.com"`, and a rejected record holding `"----"`. -/
theorem decode_tag0_revalidates_domain_witness :
    NodeAddress.decode (0 :: 5 :: cp "a.com" ++ [0, 80]) =
      .ok (9, ⟨.dns ⟨cp "a.com"⟩, 80⟩)
    ∧ dnsValidate (List.take 5 (cp "a.com" ++ [0, 80])) = true
    ∧ (NodeAddress.decode (0 :: 4 :: (cp "----" ++ [0, 80]))).isOk = false := by
  refine ⟨rfl, ?_, ?_⟩
  · exact decode_tag0_revalidates_domain.1 5 (cp "a.com" ++ [0, 80]) 9
      ⟨.dns ⟨cp "a.com"⟩, 80⟩ (by rfl) ⟨cp "a.com"⟩ rfl
  · exact decode_tag0_revalidates_domain.2 4 (cp "----" ++ [0, 80])
      (by decide) (by decide)

theorem cacheGet_cacheRemove (cache : ResolverCache) (key : List Nat) :
    cacheGet (cacheRemove cache key) key = none := by
  induction cache with
  | nil => rfl
  | cons e rest ih =>
    by_cases h : (e.1 == key) = true
    · simp [cacheRemove, h, ih]
    · simp only [cacheRemove, h, if_neg, Bool.false_eq_true, if_false]
      simp [cacheGet, h, ih]

/-- C9: resolving a domain-variant address serves the cache without
invoking the backend exactly when an entry exists whose age satisfies
`now - born <= ttl`; an existing expired entry is removed and resolution
proceeds through the backend against the pruned cache; and a backend
returning zero addresses makes resolve fail with the not-found error
naming the domain, leaving no cache entry for it. -/
theorem resolver_cache_semantics (cache : ResolverCache) (ttl now : Nat)
    (backend : List SockAddr) (port : Nat) (name : List Nat) :
    ((resolve cache ttl now backend (.domain port name)).backendInvoked = false ↔
      ∃ e, cacheGet cache name = some e ∧ now - e.born ≤ e.ttl)
    ∧ (∀ e, cacheGet cache name = some e → now - e.born ≤ e.ttl →
        resolve cache ttl now backend (.domain port name) = ⟨.ok e.val, cache, false⟩)
    ∧ (∀ e, cacheGet cache name = some e → e.ttl < now - e.born →
        resolve cache ttl now backend (.domain port name) =
          resolveViaBackend (cacheRemove cache name) ttl now backend name
        ∧ (resolve cache ttl now backend (.domain port name)).backendInvoked = true)
    ∧ (backend = [] →
        (resolve cache ttl now backend (.domain port name)).backendInvoked = true →
        (resolve cache ttl now backend (.domain port name)).result = .error name
        ∧ cacheGet (resolve cache ttl now backend (.domain port name)).cache name
          = none) := by
  have hbi : ∀ c, (resolveViaBackend c ttl now backend name).backendInvoked = true := by
    intro c
    cases backend <;> simp [resolveViaBackend]
  refine ⟨?_, ?_, ?_, ?_⟩
  · cases hget : cacheGet cache name with
    | none =>
      simp only [resolve, hget, hbi]
      simp
    | some e =>
      by_cases hexp : CachedSocketAddr.isExpired e now
      · simp only [resolve, hget, hexp, Bool.not_true, Bool.false_eq_true, if_false, hbi]
        simp only [CachedSocketAddr.isExpired, decide_eq_true_eq] at hexp
        simp only [Bool.true_eq_false, false_iff]
        rintro ⟨e', he', hle⟩
        cases he'
        omega
      · simp only [resolve, hget, hexp, Bool.not_false, if_true]
        simp only [CachedSocketAddr.isExpired, decide_eq_true_eq, Nat.not_lt] at hexp
        simp only [true_iff]
        exact ⟨e, rfl, hexp⟩
  · intro e hget hle
    have hexp : CachedSocketAddr.isExpired e now = false := by
      simp only [CachedSocketAddr.isExpired, decide_eq_false_iff_not, Nat.not_lt]
      exact hle
    simp [resolve, hget, hexp]
  · intro e hget hgt
    have hexp : CachedSocketAddr.isExpired e now = true := by
      simp only [CachedSocketAddr.isExpired, decide_eq_true_eq]
      exact hgt
    refine ⟨by simp [resolve, hget, hexp], ?_⟩
    simp [resolve, hget, hexp, hbi]
  · intro hb _
    subst hb
    cases hget : cacheGet cache name with
    | none =>
      simp [resolve, hget, resolveViaBackend]
    | some e =>
      by_cases hexp : CachedSocketAddr.isExpired e now
      · simp [resolve, hget, hexp, resolveViaBackend, cacheGet_cacheRemove]
      · simp only [resolve, hget, hexp, Bool.not_false, if_true] at *
        simp [resolveViaBackend] at *

/-- Witness for C9: an expired entry for `"a"` with an empty backend is
evicted and resolution fails with the not-found error naming `"a"`. -/
theorem resolver_cache_semantics_witness :
    cacheGet [([97], ⟨⟨.v4 [1, 2, 3, 4], 80⟩, 0, 60⟩)] [97] =
      some ⟨⟨.v4 [1, 2, 3, 4], 80⟩, 0, 60⟩
    ∧ (60 : Nat) < 100 - 0
    ∧ resolve [([97], ⟨⟨.v4 [1, 2, 3, 4], 80⟩, 0, 60⟩)] 60 100 [] (.domain 8080 [97]) =
      resolveViaBackend
        (cacheRemove [([97], ⟨⟨.v4 [1, 2, 3, 4], 80⟩, 0, 60⟩)] [97]) 60 100 [] [97]
    ∧ (resolve [([97], ⟨⟨.v4 [1, 2, 3, 4], 80⟩, 0, 60⟩)] 60 100 []
        (.domain 8080 [97])).result = .error [97] :=
  ⟨rfl, by decide,
    (resolver_cache_semantics [([97], ⟨⟨.v4 [1, 2, 3, 4], 80⟩, 0, 60⟩)] 60 100 []
      8080 [97]).2.2.1 ⟨⟨.v4 [1, 2, 3, 4], 80⟩, 0, 60⟩ rfl (by decide) |>.1,
    ((resolver_cache_semantics [([97], ⟨⟨.v4 [1, 2, 3, 4], 80⟩, 0, 60⟩)] 60 100 []
      8080 [97]).2.2.2 rfl (by
        exact ((resolver_cache_semantics [([97], ⟨⟨.v4 [1, 2, 3, 4], 80⟩, 0, 60⟩)]
          60 100 [] 8080 [97]).2.2.1 ⟨⟨.v4 [1, 2, 3, 4], 80⟩, 0, 60⟩ rfl
          (by decide)).2)).1⟩

/-! ## Lemmas for the canonical-FQDN invariant (C6) -/

theorem drun_append (l₁ l₂ : List Nat) : ∀ s : DState,
    drun s (l₁ ++ l₂) =
      match drun s l₁ with
      | none => none
      | some s' => drun s' l₂ := by
  induction l₁ with
  | nil => intro s; simp [drun]
  | cons c rest ih =>
    intro s
    simp only [List.cons_append, drun]
    cases dstep s c with
    | none => rfl
    | some s' => exact ih s'

theorem drun_two_dots (s : DState) : drun s [46, 46] = none := by
  cases s <;> rfl

theorem drun_trailing_two_dots (t : List Nat) (s : DState) :
    drun s (t ++ [46, 46]) = none := by
  rw [drun_append]
  cases drun s t with
  | none => rfl
  | some s' => exact drun_two_dots s'

theorem domainValidate_trailing_two_dots (t : List Nat) :
    domainValidate (t ++ [46, 46]) = false := by
  unfold domainValidate
  split
  · rfl
  · rw [if_neg ?hne]
    · rw [drun_trailing_two_dots]
    case hne =>
      intro h
      simp only [beq_iff_eq] at h
      have := congrArg List.length h
      simp at this

theorem endsWithDot_decompose {l : List Nat} (h : endsWithDot l = true) :
    l = l.dropLast ++ [46] := by
  unfold endsWithDot at h
  rw [beq_iff_eq] at h
  have hne : l ≠ [] := by
    intro he
    rw [he] at h
    cases h
  have h2 := List.dropLast_concat_getLast hne
  rw [List.getLast?_eq_getLast_of_ne_nil hne] at h
  have h3 : l.getLast hne = 46 := Option.some.inj h
  rw [h3] at h2
  exact h2.symm

theorem trimDots_append_dot {t : List Nat} (h : endsWithDot t = false) :
    trimDots (t ++ [46]) = t := by
  unfold trimDots
  rw [List.reverse_append]
  have h46 : ((46 : Nat) == 46) = true := by decide
  simp only [List.reverse_cons, List.reverse_nil, List.nil_append,
    List.cons_append, List.dropWhile_cons, h46, if_true]
  cases htr : t.reverse with
  | nil =>
    have : t = [] := List.reverse_eq_nil_iff.1 htr
    simp [this]
  | cons x xs =>
    have hx : t.getLast? = some x := by
      rw [← List.head?_reverse, htr]
      rfl
    have hxne : (x == 46) = false := by
      unfold endsWithDot at h
      rw [hx] at h
      cases hbe : x == 46
      · rfl
      · rw [beq_iff_eq] at hbe
        subst hbe
        simp at h
    rw [List.dropWhile_cons, hxne]
    simp only [Bool.false_eq_true, if_false]
    rw [← htr, List.reverse_reverse]

theorem validate_one_trailing_dot {l : List Nat}
    (hv : domainValidate l = true) (he : endsWithDot l = true) :
    trimDots l ++ [46] = l := by
  have hdec := endsWithDot_decompose he
  by_cases ht : endsWithDot l.dropLast = true
  · exfalso
    have hdec2 := endsWithDot_decompose ht
    rw [hdec, hdec2, List.append_assoc] at hv
    have h2 : ([46] : List Nat) ++ [46] = [46, 46] := rfl
    rw [h2, domainValidate_trailing_two_dots] at hv
    cases hv
  · have ht' : endsWithDot l.dropLast = false := by
      cases hb : endsWithDot l.dropLast
      · rfl
      · exact absurd hb ht
    conv_lhs => rw [hdec]
    rw [trimDots_append_dot ht']
    exact hdec.symm

theorem punyDigit_ne_dot (d : Nat) : punyDigit d ≠ 46 := by
  unfold punyDigit
  split <;> omega

theorem punyEncodeVar_mem : ∀ (fuel q bias k : Nat) (out : List Nat) (x : Nat),
    x ∈ punyEncodeVar q bias k fuel out → x ∈ out ∨ ∃ d, x = punyDigit d := by
  intro fuel
  induction fuel with
  | zero => intro q bias k out x hx; exact .inl hx
  | succ fuel ih =>
    intro q bias k out x hx
    simp only [punyEncodeVar] at hx
    set t := if k ≤ bias then 1 else if bias + 26 ≤ k then 26 else k - bias with ht
    split at hx
    · rcases List.mem_append.1 hx with h | h
      · exact .inl h
      · exact .inr ⟨q, by simpa using h⟩
    · rcases ih _ _ _ _ _ hx with h | h
      · rcases List.mem_append.1 h with h' | h'
        · exact .inl h'
        · exact .inr ⟨_, by simpa using h'⟩
      · exact .inr h

theorem punyScan_mem (b n : Nat) : ∀ (l : List Nat) (delta bias h : Nat)
    (out : List Nat) (x : Nat),
    x ∈ (punyScan b n l delta bias h out).2.2.2 →
      x ∈ out ∨ ∃ d, x = punyDigit d := by
  intro l
  induction l with
  | nil => intro delta bias h out x hx; exact .inl hx
  | cons c rest ih =>
    intro delta bias h out x hx
    simp only [punyScan] at hx
    split at hx
    · exact ih _ _ _ _ _ hx
    · split at hx
      · rcases ih _ _ _ _ _ hx with hmem | hdig
        · exact punyEncodeVar_mem _ _ _ _ _ _ hmem
        · exact .inr hdig
      · exact ih _ _ _ _ _ hx

theorem punyOuter_mem (input : List Nat) (b : Nat) :
    ∀ (fuel n delta bias h : Nat) (out : List Nat) (x : Nat),
    x ∈ punyOuter input b n delta bias h out fuel →
      x ∈ out ∨ ∃ d, x = punyDigit d := by
  intro fuel
  induction fuel with
  | zero => intro n delta bias h out x hx; exact .inl hx
  | succ fuel ih =>
    intro n delta bias h out x hx
    simp only [punyOuter] at hx
    split at hx
    · exact .inl hx
    · rcases hps : punyScan b (minAbove input n) input
        (delta + (minAbove input n - n) * (h + 1)) bias h out with ⟨d2, b2, h2, o2⟩
      rw [hps] at hx
      rcases ih _ _ _ _ _ _ hx with hmem | hdig
      · have ho2 : o2 = (punyScan b (minAbove input n) input
            (delta + (minAbove input n - n) * (h + 1)) bias h out).2.2.2 := by
          rw [hps]
        rw [ho2] at hmem
        exact punyScan_mem _ _ _ _ _ _ _ _ hmem
      · exact .inr hdig

theorem punycodeEncode_mem (input : List Nat) (x : Nat)
    (hx : x ∈ punycodeEncode input) :
    (x ∈ input ∧ x < 128) ∨ x = 45 ∨ ∃ d, x = punyDigit d := by
  unfold punycodeEncode at hx
  rcases punyOuter_mem _ _ _ _ _ _ _ _ _ hx with hmem | hdig
  · rcases List.mem_append.1 hmem with hb | hd
    · rw [List.mem_filter] at hb
      exact .inl ⟨hb.1, by simpa using hb.2⟩
    · split at hd
      · simp at hd
        exact .inr (.inl hd)
      · simp at hd
  · exact .inr (.inr hdig)

theorem encodeLabel_no_dot {lb out : List Nat}
    (h : encodeLabel lb = some out) : ¬ 46 ∈ out := by
  unfold encodeLabel at h
  split at h
  · cases h
  · rename_i hall
    have hallowed : ∀ c ∈ lb.map idnaMapChar, idnaLabelAllowed c = true := by
      rw [← List.all_eq_true]
      cases hb : (lb.map idnaMapChar).all idnaLabelAllowed
      · rw [hb] at hall
        simp at hall
      · rfl
    have h46 : idnaLabelAllowed 46 = false := by decide
    split at h
    · cases h
      intro hmem
      have := hallowed _ hmem
      rw [h46] at this
      cases this
    · cases h
      intro hmem
      rcases List.mem_append.1 hmem with hpre | hpuny
      · simp at hpre
      · rcases punycodeEncode_mem _ _ hpuny with ⟨hm, _⟩ | h45 | ⟨d, hd⟩
        · have := hallowed _ hm
          rw [h46] at this
          cases this
        · cases h45
        · exact punyDigit_ne_dot d hd.symm

theorem traverseOption_mem {f : List Nat → Option (List Nat)} :
    ∀ {xs : List (List Nat)} {ys : List (List Nat)},
    traverseOption f xs = some ys → ∀ y ∈ ys, ∃ x ∈ xs, f x = some y := by
  intro xs
  induction xs with
  | nil =>
    intro ys h y hy
    cases h
    cases hy
  | cons a as ih =>
    intro ys h y hy
    simp only [traverseOption] at h
    cases hfa : f a with
    | none => rw [hfa] at h; cases h
    | some b =>
      rw [hfa] at h
      cases hta : traverseOption f as with
      | none => rw [hta] at h; cases h
      | some bs =>
        rw [hta] at h
        cases h
        rcases List.mem_cons.1 hy with hyb | hybs
        · exact ⟨a, List.mem_cons_self a as, hyb ▸ hfa⟩
        · rcases ih hta y hybs with ⟨x, hxas, hfx⟩
          exact ⟨x, List.mem_cons_of_mem a hxas, hfx⟩

theorem traverseOption_concat {f : List Nat → Option (List Nat)} :
    ∀ (xs : List (List Nat)) (x : List Nat),
    traverseOption f (xs ++ [x]) =
      match traverseOption f xs, f x with
      | some ys, some y => some (ys ++ [y])
      | _, _ => none := by
  intro xs
  induction xs with
  | nil =>
    intro x
    simp only [List.nil_append, traverseOption]
    cases f x <;> rfl
  | cons a as ih =>
    intro x
    show traverseOption f (a :: (as ++ [x])) = _
    simp only [traverseOption]
    rw [ih x]
    cases f a <;> cases traverseOption f as <;> cases f x <;> rfl

theorem joinDots_ne_nil : ∀ (l : List Nat) (ls : List (List Nat)),
    l ≠ [] → joinDots (l :: ls) ≠ [] := by
  intro l ls hl
  cases ls with
  | nil => simpa [joinDots] using hl
  | cons l' rest =>
    simp only [joinDots]
    exact List.append_ne_nil_of_right_ne_nil _ (by simp)

theorem joinDots_not_ends_dot : ∀ (ls : List (List Nat)),
    (∀ l ∈ ls, l ≠ [] ∧ ¬ 46 ∈ l) → endsWithDot (joinDots ls) = false := by
  intro ls
  induction ls with
  | nil => intro _; rfl
  | cons l rest ih =>
    intro hf
    cases rest with
    | nil =>
      have hl := hf l (List.mem_cons_self _ _)
      show (List.getLast? l == some 46) = false
      rw [List.getLast?_eq_getLast_of_ne_nil hl.1]
      have hmem := List.getLast_mem hl.1
      cases hbe : (some (l.getLast hl.1) == some 46)
      · rfl
      · rw [beq_iff_eq] at hbe
        exfalso
        apply hl.2
        rw [← Option.some.inj hbe]
        exact hmem
    | cons l' rest' =>
      have hjne : joinDots (l' :: rest') ≠ [] :=
        joinDots_ne_nil l' rest' (hf l' (by simp)).1
      show endsWithDot (l ++ 46 :: joinDots (l' :: rest')) = false
      have hsplit : l ++ 46 :: joinDots (l' :: rest') =
          (l ++ [46]) ++ joinDots (l' :: rest') := by
        simp
      rw [hsplit]
      unfold endsWithDot
      rw [List.getLast?_append_of_ne_nil _ hjne]
      have := ih (fun x hx => hf x (List.mem_cons_of_mem l hx))
      unfold endsWithDot at this
      exact this

theorem splitOnByte_ne_nil (sep : Nat) : ∀ l : List Nat, splitOnByte sep l ≠ [] := by
  intro l
  induction l with
  | nil => simp [splitOnByte]
  | cons c rest ih =>
    simp only [splitOnByte]
    cases hs : splitOnByte sep rest with
    | nil => simp
    | cons g gs =>
      by_cases hc : (c == sep) = true
      · simp [hc]
      · simp [hc]

theorem splitOnByte_concat_sep : ∀ t : List Nat,
    splitOnByte 46 (t ++ [46]) = splitOnByte 46 t ++ [[]] := by
  intro t
  induction t with
  | nil => rfl
  | cons c rest ih =>
    show splitOnByte 46 (c :: (rest ++ [46])) = _
    simp only [splitOnByte, ih]
    cases hs : splitOnByte 46 rest with
    | nil => exact absurd hs (splitOnByte_ne_nil 46 rest)
    | cons g gs =>
      simp only [List.cons_append]
      split <;> rfl

/-- Destructure a successful `idnaToAscii` run. -/
theorem idnaToAscii_elim {input v : List Nat} (h : idnaToAscii input = some v) :
    ∃ labels,
      traverseOption encodeLabel
        (splitOnByte 46 (if endsWithDot input then input.dropLast else input))
        = some labels
      ∧ (labels.all (fun l => 1 ≤ l.length && l.length ≤ 63)
          && (joinDots labels).length ≤ 253) = true
      ∧ v = joinDots labels ++ (if endsWithDot input then [46] else []) := by
  unfold idnaToAscii at h
  cases hts : traverseOption encodeLabel
      (splitOnByte 46 (if endsWithDot input then input.dropLast else input)) with
  | none => rw [hts] at h; cases h
  | some labels =>
    rw [hts] at h
    dsimp only at h
    by_cases hchk : (labels.all (fun l => 1 ≤ l.length && l.length ≤ 63)
        && (joinDots labels).length ≤ 253) = true
    · rw [if_pos hchk] at h
      exact ⟨labels, rfl, hchk, (Option.some.inj h).symm⟩
    · rw [if_neg hchk] at h
      cases h

theorem idna_labels_good {body : List Nat} {labels : List (List Nat)}
    (hts : traverseOption encodeLabel (splitOnByte 46 body) = some labels)
    (hchk : labels.all (fun l => 1 ≤ l.length && l.length ≤ 63) = true) :
    ∀ l ∈ labels, l ≠ [] ∧ ¬ 46 ∈ l := by
  intro l hl
  constructor
  · have hlen := List.all_eq_true.1 hchk l hl
    simp only [Bool.and_eq_true, decide_eq_true_eq] at hlen
    intro hnil
    rw [hnil] at hlen
    simp at hlen
  · rcases traverseOption_mem hts l hl with ⟨x, _, hfx⟩
    exact encodeLabel_no_dot hfx

theorem idnaToAscii_ends_dot {input v : List Nat}
    (h : idnaToAscii input = some v) (he : endsWithDot v = true) :
    trimDots v ++ [46] = v := by
  obtain ⟨labels, hts, hchk, hv⟩ := idnaToAscii_elim h
  have hnd : endsWithDot (joinDots labels) = false :=
    joinDots_not_ends_dot labels
      (idna_labels_good hts (Bool.and_eq_true_iff.1 hchk).1)
  by_cases hr : endsWithDot input = true
  · rw [hr, if_pos rfl] at hv
    rw [hv, trimDots_append_dot hnd]
  · rw [if_neg hr, List.append_nil] at hv
    rw [hv] at he
    rw [hnd] at he
    cases he

theorem idnaToAscii_trailing_double_dot (t : List Nat) :
    idnaToAscii (t ++ [46, 46]) = none := by
  have hass : t ++ [46, 46] = (t ++ [46]) ++ [46] := by simp
  have hroot : endsWithDot (t ++ [46, 46]) = true := by
    rw [hass]
    unfold endsWithDot
    rw [List.getLast?_concat]
    rfl
  have hdrop : (t ++ [46, 46]).dropLast = t ++ [46] := by
    rw [hass, List.dropLast_concat]
  unfold idnaToAscii
  rw [hroot, if_pos rfl, hdrop, splitOnByte_concat_sep, traverseOption_concat]
  cases hts : traverseOption encodeLabel (splitOnByte 46 t) with
  | none => rfl
  | some ls =>
    have he : encodeLabel [] = some [] := rfl
    simp only [he]
    have hbad : ((ls ++ [([] : List Nat)]).all
        (fun l => 1 ≤ l.length && l.length ≤ 63)) = false := by
      simp
    simp [hbad]

/-- C6: every successfully constructed `Domain` is stored in canonical
FQDN form with exactly one trailing dot (`fqdn_str` is `as_str` plus one
dot), regardless of whether the input had a trailing dot; equality is
equality of `as_str` views; and constructing from `"name"` and from
`"name."` yields equal values. -/
theorem domain_canonical_fqdn_invariant :
    (∀ l d, Domain.tryFromInner l = some d → d.fqdnStr = d.asStr ++ [46])
    ∧ (∀ d1 d2 : Domain, Domain.eqv d1 d2 = true ↔ d1.asStr = d2.asStr)
    ∧ (∀ l d d', Domain.tryFromInner l = some d →
        Domain.tryFromInner (l ++ [46]) = some d' → Domain.eqv d d' = true) := by
  refine ⟨?_, ?_, ?_⟩
  · intro l d h
    unfold Domain.tryFromInner at h
    split at h
    · by_cases hv : domainValidate l = true
      · rw [if_pos hv] at h
        by_cases he : endsWithDot l = true
        · rw [if_pos he] at h
          cases h
          show l = trimDots l ++ [46]
          exact (validate_one_trailing_dot hv he).symm
        · rw [if_neg he] at h
          cases h
          show l ++ [46] = trimDots (l ++ [46]) ++ [46]
          rw [Bool.not_eq_true] at he
          rw [trimDots_append_dot he]
      · rw [if_neg hv] at h
        cases h
    · cases hi : idnaToAscii l with
      | none => rw [hi] at h; cases h
      | some v =>
        rw [hi] at h
        dsimp only at h
        by_cases he : endsWithDot v = true
        · rw [if_pos he] at h
          cases h
          show v = trimDots v ++ [46]
          exact (idnaToAscii_ends_dot hi he).symm
        · rw [if_neg he] at h
          cases h
          show v ++ [46] = trimDots (v ++ [46]) ++ [46]
          rw [Bool.not_eq_true] at he
          rw [trimDots_append_dot he]
  · intro d1 d2
    simp [Domain.eqv]
  · intro l d d' h h'
    by_cases hascii : (l.all fun c => c < 128) = true
    · have hascii' : ((l ++ [46]).all fun c => c < 128) = true := by
        rw [List.all_append, hascii]
        rfl
      unfold Domain.tryFromInner at h h'
      rw [if_pos hascii] at h
      rw [if_pos hascii'] at h'
      by_cases he : endsWithDot l = true
      · exfalso
        have hdec := endsWithDot_decompose he
        have hbad : domainValidate (l ++ [46]) = false := by
          rw [hdec, List.append_assoc]
          have h2 : ([46] : List Nat) ++ [46] = [46, 46] := rfl
          rw [h2]
          exact domainValidate_trailing_two_dots _
        rw [hbad] at h'
        simp at h'
      · have he' : endsWithDot l = false := by rwa [Bool.not_eq_true] at he
        by_cases hv : domainValidate l = true
        · rw [if_pos hv, if_neg he] at h
          cases h
          have hend : endsWithDot (l ++ [46]) = true := by
            unfold endsWithDot
            rw [List.getLast?_concat]
            rfl
          by_cases hv' : domainValidate (l ++ [46]) = true
          · rw [if_pos hv', if_pos hend] at h'
            cases h'
            simp [Domain.eqv]
          · rw [if_neg hv'] at h'
            cases h'
        · rw [if_neg hv] at h
          cases h
    · have hascii' : ¬ ((l ++ [46]).all fun c => c < 128) = true := by
        rw [List.all_append]
        intro hcontra
        exact hascii (Bool.and_eq_true_iff.1 hcontra).1
      unfold Domain.tryFromInner at h h'
      rw [if_neg hascii] at h
      rw [if_neg hascii'] at h'
      by_cases he : endsWithDot l = true
      · exfalso
        have hdec := endsWithDot_decompose he
        have hnone : idnaToAscii (l ++ [46]) = none := by
          rw [hdec, List.append_assoc]
          have h2 : ([46] : List Nat) ++ [46] = [46, 46] := rfl
          rw [h2]
          exact idnaToAscii_trailing_double_dot _
        rw [hnone] at h'
        cases h'
      · have he' : endsWithDot l = false := by rwa [Bool.not_eq_true] at he
        cases hi : idnaToAscii l with
        | none => rw [hi] at h; cases h
        | some v =>
          rw [hi] at h
          dsimp only at h
          obtain ⟨labels, hts, hchk, hv⟩ := idnaToAscii_elim hi
          rw [he'] at hts hv
          simp only [Bool.false_eq_true, if_false, List.append_nil] at hts hv
          have hend : endsWithDot (l ++ [46]) = true := by
            unfold endsWithDot
            rw [List.getLast?_concat]
            rfl
          have hdrop : (l ++ [46]).dropLast = l := List.dropLast_concat
          have hi' : idnaToAscii (l ++ [46]) = some (joinDots labels ++ [46]) := by
            unfold idnaToAscii
            rw [hend]
            simp only [if_true, hdrop]
            rw [hts]
            dsimp only
            rw [if_pos hchk]
          rw [hi'] at h'
          dsimp only at h'
          have hend2 : endsWithDot (joinDots labels ++ [46]) = true := by
            unfold endsWithDot
            rw [List.getLast?_concat]
            rfl
          rw [if_pos hend2] at h'
          cases h'
          have hnd : endsWithDot (joinDots labels) = false :=
            joinDots_not_ends_dot labels
              (idna_labels_good hts (Bool.and_eq_true_iff.1 hchk).1)
          have hvnd : endsWithDot v = false := by rw [hv]; exact hnd
          rw [if_neg (by rw [hvnd]; simp)] at h
          cases h
          simp [Domain.eqv, hv]

/-- Witness for C6 at the concrete inputs `"example.com"` and
`"example.com."`. -/
theorem domain_canonical_fqdn_invariant_witness :
    Domain.tryFromInner (cp "example.com") = some ⟨cp "example.com."⟩
    ∧ (⟨cp "example.com."⟩ : Domain).fqdnStr =
      (⟨cp "example.com."⟩ : Domain).asStr ++ [46]
    ∧ Domain.tryFromInner (cp "example.com" ++ [46]) = some ⟨cp "example.com."⟩
    ∧ Domain.eqv ⟨cp "example.com."⟩ ⟨cp "example.com."⟩ = true :=
  ⟨rfl,
    domain_canonical_fqdn_invariant.1 (cp "example.com") ⟨cp "example.com."⟩ rfl,
    by rfl,
    domain_canonical_fqdn_invariant.2.2 (cp "example.com")
      ⟨cp "example.com."⟩ ⟨cp "example.com."⟩ rfl (by rfl)⟩

end Nodecraft
